import Mathlib

/-!
Verification of the WhOSSprFlow dictation core against its specification.

The definitions below are a shallow embedding of the Python source:

* `DictationState`, `setState`, `handleError`, `processAudio` embed
  `whossper/core/dictation_controller.py` (`DictationState`, `_set_state`,
  `_handle_error`, `_process_audio`).  External adapters (transcriber,
  enhancer, inserter) are passed in as values/functions: an adapter call
  that may raise is modelled as `Except String α` (`.error` = the Python
  call raised).  Observable side effects (state-change callbacks,
  `on_transcription`, `on_error`, inserter invocations, the backoff sleep)
  are recorded in an explicit trace.

* `Recorder`, `Recorder.stopRecording` embed `whossper/audio/recorder.py`
  (`AudioRecorder.stop_recording`), with the duration computed over `ℚ`.

* `startRecording`, `stopRecordingEngine`, `cancelRecording` embed the
  state-gated control operations of `DictationController`.

* `PKey`, `normalizeKey`, `pressReg`, `releaseReg`, `stepEvent`,
  `runEvents`, `parseShortcut`, `registerShortcut` embed
  `whossper/input/keyboard_listener.py` (`KeyboardListener`).  Shortcut
  callbacks are recorded as trace events (`CbEvent`); the observed toggle
  bit carried by an activation event is the value stored in
  `_toggle_states` at the moment the callback is invoked.
-/

/-! ## Dictation pipeline (core/dictation_controller.py) -/

inductive DictationState where
  | idle
  | recording
  | transcribing
  | enhancing
  | inserting
  | error
deriving DecidableEq, Repr

/-- One observable effect of the engine, in the order it happens. -/
inductive Obs where
  | stateChange (s : DictationState)
  | transcriptionCb (text : String)
  | errorCb (msg : String)
  | insertCall (text : String)
  | sleepMs (ms : Nat)
deriving DecidableEq, Repr

structure EngineObs where
  state : DictationState
  trace : List Obs
deriving DecidableEq, Repr

/-- `DictationController._set_state`: mutate the state and fire the
state-change callback only when the state actually changes. -/
def setState (s : DictationState) (e : EngineObs) : EngineObs :=
  if e.state = s then e
  else { state := s, trace := e.trace ++ [Obs.stateChange s] }

def emit (o : Obs) (e : EngineObs) : EngineObs :=
  { e with trace := e.trace ++ [o] }

/-- `DictationController._handle_error`: enter `ERROR`, fire `on_error`,
sleep 0.5 s, return to `IDLE`. -/
def handleError (msg : String) (e : EngineObs) : EngineObs :=
  setState .idle (emit (Obs.sleepMs 500) (emit (Obs.errorCb msg) (setState .error e)))

/-- Python `str.strip()` (no argument): drop leading and trailing
whitespace.  Used by `transcribe_to_text` on the model output. -/
def stripStr (s : String) : String :=
  String.mk (((s.data.dropWhile Char.isWhitespace).reverse.dropWhile Char.isWhitespace).reverse)

/-- Text the worker ends up inserting after the (optional) enhancement
stage: on enhancer error the original text is kept
(`except Exception: logger.warning(...)` in `_process_audio`). -/
def enhResultText (text : String) (enh : Option (String → Except String String)) : String :=
  match enh with
  | none => text
  | some f =>
    match f text with
    | .ok t => t
    | .error _ => text

/-- `DictationController._process_audio`, as a function of the three
adapter outcomes.  `tr` is the result of
`transcriber.transcribe_to_text(audio_file)` (`.error` = it raised; the
transcriber strips the model output, which we replay with `stripStr`).
`ins t` is the result of `inserter.insert_text_with_fallback(t)`
(`.error` = it raised; on an exception the source logs and re-raises, so
the exception reaches the outer handler and `_handle_error` runs).
The `finally` block always sets the state back to `IDLE`. -/
def processAudio (tr : Except String String)
    (enh : Option (String → Except String String))
    (ins : String → Except String Bool)
    (e0 : EngineObs) : EngineObs :=
  let e1 := setState .transcribing e0
  match tr with
  | .error msg => setState .idle (handleError ("Processing failed: " ++ msg) e1)
  | .ok raw =>
    let text := stripStr raw
    if text = "" then
      setState .idle (setState .idle e1)
    else
      let p : String × EngineObs :=
        match enh with
        | none => (text, e1)
        | some f =>
          let e2 := setState .enhancing e1
          match f text with
          | .ok t => (t, e2)
          | .error _ => (text, e2)
      let e3 := emit (Obs.insertCall p.1) (setState .inserting p.2)
      match ins p.1 with
      | .error msg => setState .idle (handleError ("Processing failed: " ++ msg) e3)
      | .ok _ => setState .idle (emit (Obs.transcriptionCb p.1) e3)

/-- Observations at worker entry: the engine is still in `RECORDING`
(the worker thread is spawned from `stop_recording` before any state
change) and we watch the trace from that point on. -/
def pipelineInit : EngineObs := { state := .recording, trace := [] }

def insertCalls (e : EngineObs) : List String :=
  e.trace.filterMap fun o =>
    match o with
    | .insertCall t => some t
    | _ => none

def transcriptionCbs (e : EngineObs) : List String :=
  e.trace.filterMap fun o =>
    match o with
    | .transcriptionCb t => some t
    | _ => none

def errorCbs (e : EngineObs) : List String :=
  e.trace.filterMap fun o =>
    match o with
    | .errorCb m => some m
    | _ => none

def stateChanges (e : EngineObs) : List DictationState :=
  e.trace.filterMap fun o =>
    match o with
    | .stateChange s => some s
    | _ => none

/-! ## Audio recorder (audio/recorder.py) -/

/-- `AudioRecorder` capture-buffer state: `frames` is the list of raw
chunk blobs appended by `_audio_callback` (each carrying `chunkSize`
sample frames), identified abstractly by a `Nat` tag. -/
structure Recorder where
  sampleRate : ℕ
  chunkSize : ℕ
  frames : List ℕ
  isRecording : Bool
deriving DecidableEq, Repr

namespace Recorder

/-- `duration = (len(self._frames) * self.chunk_size) / self.sample_rate`
with real (Python float) division modelled over `ℚ`. -/
def duration (r : Recorder) : ℚ :=
  (r.frames.length * r.chunkSize : ℚ) / (r.sampleRate : ℚ)

/-- Outcome of `AudioRecorder.stop_recording`. -/
inductive StopOutcome where
  | notRecording
  | tooShort (msg : String)
  | noFrames
  | saved (nFrames : ℕ)
deriving DecidableEq, Repr

/-- `AudioRecorder.stop_recording(min_duration)`: on a recording shorter
than `minDuration` it raises `ValueError` (`tooShort`); the `finally`
block clears the stream and the `is_recording` flag but never touches
`_frames`, so the accumulated frames are retained on every exit path. -/
def stopRecording (minDuration : ℚ) (r : Recorder) : StopOutcome × Recorder :=
  if r.isRecording = false then (.notRecording, r)
  else if r.duration < minDuration then
    (.tooShort "Recording must be at least min_duration seconds long",
     { r with isRecording := false })
  else if r.frames = [] then (.noFrames, { r with isRecording := false })
  else (.saved r.frames.length, { r with isRecording := false })

/-- `AudioRecorder.start_recording`: rejected while already recording;
otherwise resets `_frames` and, if the device opens (`deviceOk`), starts
capture.  On a stream-open failure the frame reset has already happened. -/
def startRec (deviceOk : Bool) (r : Recorder) : Bool × Recorder :=
  if r.isRecording then (false, r)
  else if deviceOk then (true, { r with frames := [], isRecording := true })
  else (false, { r with frames := [] })

/-- `AudioRecorder.cancel_recording`: discard frames unconditionally. -/
def cancelRec (r : Recorder) : Recorder :=
  { r with isRecording := false, frames := [] }

end Recorder

/-! ## Engine control operations (core/dictation_controller.py) -/

/-- The engine as seen by the control operations: the observable state
plus the capture buffer. -/
structure Engine where
  obs : EngineObs
  recorder : Recorder
deriving DecidableEq, Repr

/-- `DictationController.start_recording`: rejected (returns `False`,
engine untouched) unless the state is `IDLE`; a device-open failure goes
through `_handle_error`. -/
def startRecording (deviceOk : Bool) (e : Engine) : Engine × Bool :=
  if e.obs.state ≠ .idle then (e, false)
  else
    match e.recorder.startRec deviceOk with
    | (true, rec') => ({ obs := setState .recording e.obs, recorder := rec' }, true)
    | (false, rec') => ({ obs := handleError "Failed to start recording" e.obs, recorder := rec' }, false)

/-- `DictationController.stop_recording`: rejected (returns `False`,
engine untouched) unless the state is `RECORDING`.  A too-short recording
raises `ValueError`, which is caught and answered with `IDLE`/`False`; a
`None` audio file also yields `IDLE`/`False`; on success the spawned
worker runs `_process_audio` (serialised here) and the call returns
`True`. -/
def stopRecordingEngine (minDuration : ℚ) (tr : Except String String)
    (enh : Option (String → Except String String))
    (ins : String → Except String Bool) (e : Engine) : Engine × Bool :=
  if e.obs.state ≠ .recording then (e, false)
  else
    match e.recorder.stopRecording minDuration with
    | (.tooShort _, rec') => ({ obs := setState .idle e.obs, recorder := rec' }, false)
    | (.noFrames, rec') => ({ obs := setState .idle e.obs, recorder := rec' }, false)
    | (.notRecording, rec') => ({ obs := setState .idle e.obs, recorder := rec' }, false)
    | (.saved _, rec') => ({ obs := processAudio tr enh ins e.obs, recorder := rec' }, true)

/-- `DictationController.cancel_recording`: only acts from `RECORDING`. -/
def cancelRecording (e : Engine) : Engine :=
  if e.obs.state = .recording then
    { obs := setState .idle e.obs, recorder := e.recorder.cancelRec }
  else e

/-! ## Keyboard listener (input/keyboard_listener.py) -/

/-- pynput key objects as they appear in the listener: generic and
left/right modifier variants, the named special keys of `KEY_MAP`, and
`KeyCode` character keys. -/
inductive PKey where
  | ctrl | ctrlL | ctrlR
  | alt | altL | altR
  | shift | shiftL | shiftR
  | cmd | cmdL | cmdR
  | space | enter | tab | esc | backspace | delete
  | up | down | left | right
  | fKey (n : ℕ)
  | char (c : Char)
deriving DecidableEq, Repr

/-- `KeyboardListener._normalize_key`: collapse left/right modifier
variants to the generic key; anything else is returned unchanged. -/
def normalizeKey : PKey → PKey
  | .ctrlL => .ctrl
  | .ctrlR => .ctrl
  | .altL => .alt
  | .altR => .alt
  | .shiftL => .shift
  | .shiftR => .shift
  | .cmdL => .cmd
  | .cmdR => .cmd
  | k => k

inductive ShortcutMode where
  | hold
  | toggle
deriving DecidableEq, Repr

/-- One entry of `KeyboardListener._shortcuts` (with its
`_toggle_states` bit folded in; both dicts are keyed by the same frozen
chord).  `hasOnRelease` records whether an `on_release` callback was
supplied. -/
structure Reg where
  chord : Finset PKey
  mode : ShortcutMode
  hasOnRelease : Bool
  active : Bool
  toggleState : Bool
deriving DecidableEq

/-- The listener state: the live pressed-key set and the registrations in
dict insertion order. -/
structure LState where
  pressed : Finset PKey
  regs : List Reg
deriving DecidableEq

/-- A shortcut callback invocation, recorded as a trace event.  For a
Toggle activation, `toggleObs` is the `_toggle_states` value at the
moment the callback runs (the source flips the bit before invoking it). -/
inductive CbEvent where
  | activate (chord : Finset PKey) (toggleObs : Option Bool)
  | deactivate (chord : Finset PKey)
deriving DecidableEq

/-- Per-registration body of the `_on_press` loop, given the already
updated pressed-key set: if the chord is fully pressed and the
registration is not yet active, mark it active, flip the toggle bit first
when in Toggle mode, and invoke the callback. -/
def pressReg (pressed : Finset PKey) (r : Reg) : Reg × List CbEvent :=
  if r.chord ⊆ pressed ∧ r.active = false then
    match r.mode with
    | .toggle =>
      ({ r with active := true, toggleState := !r.toggleState },
       [.activate r.chord (some (!r.toggleState))])
    | .hold => ({ r with active := true }, [.activate r.chord none])
  else (r, [])

/-- Per-registration body of the `_on_release` loop, given the already
updated pressed-key set: an active registration whose chord is no longer
fully pressed is deactivated; only Hold mode with an `on_release`
callback fires an event. -/
def releaseReg (pressed : Finset PKey) (r : Reg) : Reg × List CbEvent :=
  match r.mode with
  | .toggle =>
    if r.active = true ∧ ¬ r.chord ⊆ pressed then ({ r with active := false }, [])
    else (r, [])
  | .hold =>
    if r.active = true ∧ ¬ r.chord ⊆ pressed then
      ({ r with active := false },
       if r.hasOnRelease then [.deactivate r.chord] else [])
    else (r, [])

/-- Apply a per-registration update to every registration in order,
collecting the emitted callback events. -/
def mapCollect (f : Reg → Reg × List CbEvent) : List Reg → List Reg × List CbEvent
  | [] => ([], [])
  | r :: rs =>
    let p := f r
    let q := mapCollect f rs
    (p.1 :: q.1, p.2 ++ q.2)

/-- A raw key event from the OS hook. -/
inductive KEvent where
  | down (k : PKey)
  | up (k : PKey)
deriving DecidableEq, Repr

/-- How `_on_press`/`_on_release` update `_pressed_keys`: the raw key and
its normalized form are added on press and discarded on release. -/
def pressedStep : KEvent → Finset PKey → Finset PKey
  | .down k, p => insert (normalizeKey k) (insert k p)
  | .up k, p => (p.erase (normalizeKey k)).erase k

/-- One `_on_press`/`_on_release` call: update the pressed set, then run
the per-registration loop. -/
def stepEvent (ev : KEvent) (s : LState) : LState × List CbEvent :=
  match ev with
  | .down k =>
    let p := pressedStep (.down k) s.pressed
    let q := mapCollect (pressReg p) s.regs
    (⟨p, q.1⟩, q.2)
  | .up k =>
    let p := pressedStep (.up k) s.pressed
    let q := mapCollect (releaseReg p) s.regs
    (⟨p, q.1⟩, q.2)

/-- Run a sequence of key events, concatenating the callback trace. -/
def runEvents : List KEvent → LState → LState × List CbEvent
  | [], s => (s, [])
  | ev :: evs, s =>
    let p := stepEvent ev s
    let q := runEvents evs p.1
    (q.1, p.2 ++ q.2)

/-- The Toggle activations recorded for a given chord, each with the
toggle value the callback observed. -/
def activationsFor (c : Finset PKey) (tr : List CbEvent) : List (Option Bool) :=
  tr.filterMap fun e =>
    match e with
    | .activate c' b => if c' = c then some b else none
    | .deactivate _ => none

/-- How many `on_release` invocations were recorded for a given chord. -/
def releasesFor (c : Finset PKey) (tr : List CbEvent) : ℕ :=
  (tr.filter fun e => e = .deactivate c).length

/-- Number of transitions of "is the chord fully pressed" from false to
true along a key-event sequence. -/
def countRises (c : Finset PKey) (p : Finset PKey) : List KEvent → ℕ
  | [] => 0
  | ev :: evs =>
    let p' := pressedStep ev p
    (if ¬ c ⊆ p ∧ c ⊆ p' then 1 else 0) + countRises c p' evs

/-- Number of transitions of "is the chord fully pressed" from true to
false along a key-event sequence. -/
def countFalls (c : Finset PKey) (p : Finset PKey) : List KEvent → ℕ
  | [] => 0
  | ev :: evs =>
    let p' := pressedStep ev p
    (if c ⊆ p ∧ ¬ c ⊆ p' then 1 else 0) + countFalls c p' evs

/-- `altList b n` = `[b, !b, b, ...]` of length `n`. -/
def altList : Bool → ℕ → List Bool
  | _, 0 => []
  | b, n + 1 => b :: altList (!b) n

/-- `KeyboardListener.KEY_MAP`: the known key-name tokens. -/
def keyMap : String → Option PKey
  | "ctrl" => some .ctrl
  | "control" => some .ctrl
  | "cmd" => some .cmd
  | "command" => some .cmd
  | "alt" => some .alt
  | "option" => some .alt
  | "shift" => some .shift
  | "space" => some .space
  | "enter" => some .enter
  | "return" => some .enter
  | "tab" => some .tab
  | "escape" => some .esc
  | "esc" => some .esc
  | "backspace" => some .backspace
  | "delete" => some .delete
  | "up" => some .up
  | "down" => some .down
  | "left" => some .left
  | "right" => some .right
  | "f1" => some (.fKey 1)
  | "f2" => some (.fKey 2)
  | "f3" => some (.fKey 3)
  | "f4" => some (.fKey 4)
  | "f5" => some (.fKey 5)
  | "f6" => some (.fKey 6)
  | "f7" => some (.fKey 7)
  | "f8" => some (.fKey 8)
  | "f9" => some (.fKey 9)
  | "f10" => some (.fKey 10)
  | "f11" => some (.fKey 11)
  | "f12" => some (.fKey 12)
  | _ => none

/-- One iteration of the `parse_shortcut` loop: a `KEY_MAP` name maps to
its key, a single character maps to `KeyCode.from_char`, anything else is
logged and dropped. -/
def classifyToken (t : String) : Option PKey :=
  match keyMap t with
  | some k => some k
  | none =>
    match t.data with
    | [c] => some (.char c)
    | _ => none

/-- Python `split("+")` over a character list: like `str.split` with an
explicit separator, adjacent separators yield empty tokens and the empty
input yields `[""]`. -/
def splitPlus : List Char → List (List Char)
  | [] => [[]]
  | c :: cs =>
    match splitPlus cs with
    | [] => [[c]]
    | g :: gs => if c = '+' then [] :: g :: gs else (c :: g) :: gs

/-- `shortcut_str.lower().replace(" ", "").split("+")` (lower-casing is
per character; every token of interest is ASCII). -/
def tokensOf (s : String) : List String :=
  (splitPlus ((s.data.map Char.toLower).filter fun c => ¬ c = ' ')).map String.mk

/-- `KeyboardListener.parse_shortcut`: the set of recognized keys. -/
def parseShortcut (s : String) : Finset PKey :=
  ((tokensOf s).filterMap classifyToken).toFinset

/-- Python dict assignment `self._shortcuts[key_combo] = {...}`: replace
an existing entry for the same chord in place, else append. -/
def storeReg (newReg : Reg) (rs : List Reg) : List Reg :=
  if rs.any fun r => r.chord = newReg.chord then
    rs.map fun r => if r.chord = newReg.chord then newReg else r
  else rs ++ [newReg]

/-- `KeyboardListener.register_shortcut`: parse the shortcut string; if
no key was recognized, log an error and store nothing (no exception is
raised); otherwise store the registration (inactive, toggle bit reset). -/
def registerShortcut (s : String) (mode : ShortcutMode) (hasRel : Bool)
    (st : LState) : LState :=
  if parseShortcut s = ∅ then st
  else { st with regs := storeReg ⟨parseShortcut s, mode, hasRel, false, false⟩ st.regs }

/-! ## Pipeline theorems -/

/-- C5: an empty or whitespace-only transcription skips enhancement and
insertion entirely: the inserter is never called, the transcription
callback never fires, and the run ends in `IDLE`. -/
theorem empty_transcription_skips_all (raw : String)
    (enh : Option (String → Except String String))
    (ins : String → Except String Bool)
    (h : stripStr raw = "") :
    insertCalls (processAudio (.ok raw) enh ins pipelineInit) = [] ∧
    transcriptionCbs (processAudio (.ok raw) enh ins pipelineInit) = [] ∧
    (processAudio (.ok raw) enh ins pipelineInit).state = .idle := by
  simp [processAudio, h, setState, pipelineInit, insertCalls, transcriptionCbs]

theorem empty_transcription_skips_all_witness :
    (stripStr "  " = "") ∧
    insertCalls (processAudio (.ok "  ") none (fun _ => .ok true) pipelineInit) = [] ∧
    transcriptionCbs (processAudio (.ok "  ") none (fun _ => .ok true) pipelineInit) = [] ∧
    (processAudio (.ok "  ") none (fun _ => .ok true) pipelineInit).state = .idle := by
  refine ⟨by decide, ?_⟩
  exact empty_transcription_skips_all "  " none (fun _ => .ok true) (by decide)

/-- C6: when an enhancer is configured and it raises, the pipeline
continues with the original transcribed text: the inserter is called with
the unenhanced text, and provided the inserter itself does not raise, the
`ERROR` state is never entered, the run ends in `IDLE` and the
transcription callback still fires with the original text. -/
theorem enhancer_error_keeps_original (raw em : String)
    (f : String → Except String String)
    (ins : String → Except String Bool)
    (hne : stripStr raw ≠ "")
    (hf : f (stripStr raw) = .error em) :
    insertCalls (processAudio (.ok raw) (some f) ins pipelineInit) = [stripStr raw] ∧
    (∀ b, ins (stripStr raw) = .ok b →
      DictationState.error ∉ stateChanges (processAudio (.ok raw) (some f) ins pipelineInit) ∧
      (processAudio (.ok raw) (some f) ins pipelineInit).state = .idle ∧
      transcriptionCbs (processAudio (.ok raw) (some f) ins pipelineInit) = [stripStr raw]) := by
  constructor
  · simp only [processAudio, hf]
    cases hi : ins (stripStr raw) <;>
      simp [hne, hi, setState, emit, handleError, pipelineInit, insertCalls]
  · intro b hi
    simp [processAudio, hf, hne, hi, setState, emit, pipelineInit,
      stateChanges, transcriptionCbs]

theorem enhancer_error_keeps_original_witness :
    (stripStr "um hello" ≠ "") ∧
    ((fun _ : String => (Except.error "boom" : Except String String)) (stripStr "um hello")
        = .error "boom") ∧
    insertCalls (processAudio (.ok "um hello")
      (some fun _ => .error "boom") (fun _ => .ok true) pipelineInit) = [stripStr "um hello"] ∧
    DictationState.error ∉ stateChanges (processAudio (.ok "um hello")
      (some fun _ => .error "boom") (fun _ => .ok true) pipelineInit) := by
  refine ⟨by decide, rfl, ?_⟩
  have h := enhancer_error_keeps_original "um hello" "boom"
    (fun _ => .error "boom") (fun _ => .ok true) (by decide) rfl
  exact ⟨h.1, (h.2 true rfl).1⟩

/-- C7: a fatal stage failure runs `_handle_error` once: the `on_error`
callback fires exactly once, the engine enters `ERROR`, and after the
fixed 0.5 s backoff it returns to `IDLE` by itself.  Part one is the
transcription failure (full trace shown); part two is the other fatal
failure, an inserter exception. -/
theorem fatal_failure_self_heals (msg raw em : String)
    (enh : Option (String → Except String String))
    (ins : String → Except String Bool) :
    ((processAudio (.error msg) enh ins pipelineInit).trace =
      [Obs.stateChange .transcribing, Obs.stateChange .error,
       Obs.errorCb ("Processing failed: " ++ msg), Obs.sleepMs 500,
       Obs.stateChange .idle] ∧
     (processAudio (.error msg) enh ins pipelineInit).state = .idle) ∧
    (stripStr raw ≠ "" →
     ins (enhResultText (stripStr raw) enh) = .error em →
     errorCbs (processAudio (.ok raw) enh ins pipelineInit) =
        ["Processing failed: " ++ em] ∧
     (processAudio (.ok raw) enh ins pipelineInit).state = .idle ∧
     ∃ pre, (processAudio (.ok raw) enh ins pipelineInit).trace =
        pre ++ [Obs.stateChange .error, Obs.errorCb ("Processing failed: " ++ em),
                Obs.sleepMs 500, Obs.stateChange .idle]) := by
  constructor
  · simp [processAudio, setState, emit, handleError, pipelineInit]
  · intro hne hi
    cases enh with
    | none =>
      simp only [enhResultText] at hi
      refine ⟨?_, ?_, ?_⟩
      · simp [processAudio, hne, hi, setState, emit, handleError, pipelineInit, errorCbs]
      · simp [processAudio, hne, hi, setState, emit, handleError, pipelineInit]
      · refine ⟨[Obs.stateChange .transcribing, Obs.stateChange .inserting,
          Obs.insertCall (stripStr raw)], ?_⟩
        simp [processAudio, hne, hi, setState, emit, handleError, pipelineInit]
    | some f =>
      simp only [enhResultText] at hi
      cases hf : f (stripStr raw) with
      | ok t =>
        rw [hf] at hi
        refine ⟨?_, ?_, ?_⟩
        · simp [processAudio, hne, hi, hf, setState, emit, handleError, pipelineInit, errorCbs]
        · simp [processAudio, hne, hi, hf, setState, emit, handleError, pipelineInit]
        · refine ⟨[Obs.stateChange .transcribing, Obs.stateChange .enhancing,
            Obs.stateChange .inserting, Obs.insertCall t], ?_⟩
          simp [processAudio, hne, hi, hf, setState, emit, handleError, pipelineInit]
      | error e' =>
        rw [hf] at hi
        refine ⟨?_, ?_, ?_⟩
        · simp [processAudio, hne, hi, hf, setState, emit, handleError, pipelineInit, errorCbs]
        · simp [processAudio, hne, hi, hf, setState, emit, handleError, pipelineInit]
        · refine ⟨[Obs.stateChange .transcribing, Obs.stateChange .enhancing,
            Obs.stateChange .inserting, Obs.insertCall (stripStr raw)], ?_⟩
          simp [processAudio, hne, hi, hf, setState, emit, handleError, pipelineInit]

theorem fatal_failure_self_heals_witness :
    (processAudio (.error "whisper crashed") none (fun _ => .ok true) pipelineInit).trace =
      [Obs.stateChange .transcribing, Obs.stateChange .error,
       Obs.errorCb ("Processing failed: " ++ "whisper crashed"), Obs.sleepMs 500,
       Obs.stateChange .idle] ∧
    (stripStr "hi" ≠ "") ∧
    errorCbs (processAudio (.ok "hi") none (fun _ => .error "paste broke") pipelineInit) =
      ["Processing failed: " ++ "paste broke"] := by
  have h := fatal_failure_self_heals "whisper crashed" "hi" "paste broke"
    none (fun _ => .ok true)
  have h2 := fatal_failure_self_heals "x" "hi" "paste broke"
    none (fun _ => .error "paste broke")
  exact ⟨h.1.1, by decide, (h2.2 (by decide) rfl).1⟩

/-- C1 counterexample: an inserter failure by exception is fatal in the
code.  With transcription "hello" and an inserter that raises, the run
enters the `ERROR` state and the transcription callback is never
invoked — contradicting the claim that any inserter failure (exception or
false result) leaves `ERROR` unentered and still fires `OnTranscription`. -/
theorem inserter_exception_is_fatal_cex :
    DictationState.error ∈ stateChanges
      (processAudio (.ok "hello") none (fun _ => .error "insert failed") pipelineInit) ∧
    transcriptionCbs
      (processAudio (.ok "hello") none (fun _ => .error "insert failed") pipelineInit) = [] ∧
    (processAudio (.ok "hello") none (fun _ => .error "insert failed") pipelineInit).state
      = .idle := by
  decide

/-- C1 amended: an inserter failure that surfaces as a `False` return
value is non-fatal — the run ends in `IDLE`, the `ERROR` state is never
entered, and the transcription callback still fires with the text whose
insertion was attempted.  An inserter failure by exception, however, is
fatal for the run: the engine enters `ERROR` and skips the transcription
callback, although it still ends in `IDLE`. -/
theorem inserter_failure_split (raw : String)
    (enh : Option (String → Except String String))
    (ins : String → Except String Bool)
    (hne : stripStr raw ≠ "") :
    insertCalls (processAudio (.ok raw) enh ins pipelineInit) =
      [enhResultText (stripStr raw) enh] ∧
    (∀ b, ins (enhResultText (stripStr raw) enh) = .ok b →
      (processAudio (.ok raw) enh ins pipelineInit).state = .idle ∧
      DictationState.error ∉ stateChanges (processAudio (.ok raw) enh ins pipelineInit) ∧
      transcriptionCbs (processAudio (.ok raw) enh ins pipelineInit) =
        [enhResultText (stripStr raw) enh]) ∧
    (∀ m, ins (enhResultText (stripStr raw) enh) = .error m →
      (processAudio (.ok raw) enh ins pipelineInit).state = .idle ∧
      DictationState.error ∈ stateChanges (processAudio (.ok raw) enh ins pipelineInit) ∧
      transcriptionCbs (processAudio (.ok raw) enh ins pipelineInit) = []) := by
  refine ⟨?_, ?_, ?_⟩
  · cases enh with
    | none =>
      simp only [enhResultText]
      cases hi : ins (stripStr raw) <;>
        simp [processAudio, hne, hi, setState, emit, handleError, pipelineInit, insertCalls]
    | some f =>
      simp only [enhResultText]
      cases hf : f (stripStr raw) <;>
        [skip; skip] <;>
        cases hi : ins (enhResultText (stripStr raw) (some f)) <;>
        simp only [enhResultText, hf] at hi <;>
        simp [processAudio, hne, hf, hi, setState, emit, handleError, pipelineInit, insertCalls]
  · intro b hi
    cases enh with
    | none =>
      simp only [enhResultText] at hi
      simp [processAudio, hne, hi, setState, emit, pipelineInit,
        stateChanges, transcriptionCbs, enhResultText]
    | some f =>
      cases hf : f (stripStr raw) <;> simp only [enhResultText, hf] at hi ⊢ <;>
        simp [processAudio, hne, hf, hi, setState, emit, pipelineInit,
          stateChanges, transcriptionCbs]
  · intro m hi
    cases enh with
    | none =>
      simp only [enhResultText] at hi
      simp [processAudio, hne, hi, setState, emit, handleError, pipelineInit,
        stateChanges, transcriptionCbs, enhResultText]
    | some f =>
      cases hf : f (stripStr raw) <;> simp only [enhResultText, hf] at hi ⊢ <;>
        simp [processAudio, hne, hf, hi, setState, emit, handleError, pipelineInit,
          stateChanges, transcriptionCbs]

theorem inserter_failure_split_witness :
    (stripStr "hello" ≠ "") ∧
    (processAudio (.ok "hello") none (fun _ => .ok false) pipelineInit).state = .idle ∧
    DictationState.error ∉ stateChanges
      (processAudio (.ok "hello") none (fun _ => .ok false) pipelineInit) ∧
    transcriptionCbs (processAudio (.ok "hello") none (fun _ => .ok false) pipelineInit) =
      [enhResultText (stripStr "hello") none] := by
  have h := inserter_failure_split "hello" none (fun _ => .ok false) (by decide)
  exact ⟨by decide, h.2.1 false rfl⟩

/-- C3: stopping an active recording whose computed duration is exactly
the configured (positive) minimum succeeds — the `<` comparison makes the
boundary inclusive — while a duration strictly below the minimum (one
frame less already suffices) fails with the too-short `ValueError`, and in
both cases the accumulated frames are retained, not discarded. -/
theorem stop_min_duration_boundary (r : Recorder) (minDuration : ℚ)
    (hrec : r.isRecording = true) (hpos : 0 < minDuration) :
    (r.duration = minDuration →
      (r.stopRecording minDuration).1 = .saved r.frames.length ∧
      (r.stopRecording minDuration).2.frames = r.frames) ∧
    (r.duration < minDuration →
      (∃ m, (r.stopRecording minDuration).1 = .tooShort m) ∧
      (r.stopRecording minDuration).2.frames = r.frames) := by
  constructor
  · intro heq
    have hnlt : ¬ r.duration < minDuration := by rw [heq]; exact lt_irrefl _
    have hfr : r.frames ≠ [] := by
      intro hnil
      rw [Recorder.duration, hnil] at heq
      simp at heq
      rw [← heq] at hpos
      exact lt_irrefl _ hpos
    simp [Recorder.stopRecording, hrec, hnlt, hfr]
  · intro hlt
    simp [Recorder.stopRecording, hrec, hlt]

theorem stop_min_duration_boundary_witness :
    -- 16 chunks of 1000 samples at 16 kHz is exactly the 1-second minimum;
    -- 15 chunks is one frame below it.
    (Recorder.mk 16000 1000 (List.range 16) true).isRecording = true ∧
    (0 : ℚ) < 1 ∧
    (Recorder.mk 16000 1000 (List.range 16) true).duration = 1 ∧
    ((Recorder.mk 16000 1000 (List.range 16) true).stopRecording 1).1 =
      .saved 16 ∧
    ((Recorder.mk 16000 1000 (List.range 16) true).stopRecording 1).2.frames =
      List.range 16 ∧
    (Recorder.mk 16000 1000 (List.range 15) true).duration < 1 ∧
    (∃ m, ((Recorder.mk 16000 1000 (List.range 15) true).stopRecording 1).1 =
      .tooShort m) ∧
    ((Recorder.mk 16000 1000 (List.range 15) true).stopRecording 1).2.frames =
      List.range 15 := by
  have hdur : (Recorder.mk 16000 1000 (List.range 16) true).duration = 1 := by
    norm_num [Recorder.duration]
  have hdur' : (Recorder.mk 16000 1000 (List.range 15) true).duration < 1 := by
    norm_num [Recorder.duration]
  have h1 := (stop_min_duration_boundary (Recorder.mk 16000 1000 (List.range 16) true) 1
    rfl (by norm_num)).1 hdur
  have h2 := (stop_min_duration_boundary (Recorder.mk 16000 1000 (List.range 15) true) 1
    rfl (by norm_num)).2 hdur'
  refine ⟨rfl, by norm_num, hdur, ?_, h1.2, hdur', h2.1, h2.2⟩
  have := h1.1
  simpa using this

/-- C2: a control call made outside its permitted source state returns
`False` and leaves the engine completely unchanged: `start_recording`
requires `IDLE` and `stop_recording` requires `RECORDING`; in particular
a second `start_recording` right after a successful one returns `False`
and the state stays `RECORDING`. -/
theorem control_calls_state_gated :
    (∀ (deviceOk : Bool) (e : Engine), e.obs.state ≠ .idle →
      startRecording deviceOk e = (e, false)) ∧
    (∀ (minDuration : ℚ) (tr : Except String String)
       (enh : Option (String → Except String String))
       (ins : String → Except String Bool) (e : Engine),
      e.obs.state ≠ .recording →
      stopRecordingEngine minDuration tr enh ins e = (e, false)) ∧
    (∀ (deviceOk deviceOk' : Bool) (e e' : Engine),
      startRecording deviceOk e = (e', true) →
      e'.obs.state = .recording ∧
      startRecording deviceOk' e' = (e', false)) := by
  refine ⟨?_, ?_, ?_⟩
  · intro dOk e h
    simp [startRecording, h]
  · intro minD tr enh ins e h
    simp [stopRecordingEngine, h]
  · intro dOk dOk' e e' h
    by_cases hidle : e.obs.state = .idle
    · rcases hrec : e.recorder.startRec dOk with ⟨ok, rec'⟩
      cases ok with
      | false => simp [startRecording, hidle, hrec] at h
      | true =>
        simp only [startRecording, hidle, ne_eq, not_true_eq_false, if_false, ite_false,
          not_false_eq_true, if_neg, hrec] at h
        have he' : ({ obs := setState .recording e.obs, recorder := rec' } : Engine) = e' :=
          (Prod.ext_iff.mp h).1
        have hstate : e'.obs.state = .recording := by
          rw [← he']
          simp [setState, hidle]
        refine ⟨hstate, ?_⟩
        simp [startRecording, hstate]
    · simp [startRecording, hidle] at h

theorem control_calls_state_gated_witness :
    -- a freshly recording engine rejects a second start and any stop out
    -- of state is rejected as well
    (Engine.mk ⟨.recording, []⟩ (Recorder.mk 16000 1000 [] true)).obs.state ≠ .idle ∧
    startRecording true (Engine.mk ⟨.recording, []⟩ (Recorder.mk 16000 1000 [] true)) =
      ((Engine.mk ⟨.recording, []⟩ (Recorder.mk 16000 1000 [] true)), false) ∧
    (Engine.mk ⟨.idle, []⟩ (Recorder.mk 16000 1000 [] false)).obs.state ≠ .recording ∧
    stopRecordingEngine 1 (.ok "hi") none (fun _ => .ok true)
      (Engine.mk ⟨.idle, []⟩ (Recorder.mk 16000 1000 [] false)) =
      ((Engine.mk ⟨.idle, []⟩ (Recorder.mk 16000 1000 [] false)), false) := by
  refine ⟨by decide, ?_, by decide, ?_⟩
  · exact control_calls_state_gated.1 true _ (by decide)
  · exact control_calls_state_gated.2.1 1 (.ok "hi") none (fun _ => .ok true) _ (by decide)

/-! ## Keyboard listener lemmas -/

theorem mapCollect_fst (f : Reg → Reg × List CbEvent) (rs : List Reg) :
    (mapCollect f rs).1 = rs.map fun r => (f r).1 := by
  induction rs with
  | nil => rfl
  | cons r rs ih => simp [mapCollect, ih]

theorem mapCollect_append (f : Reg → Reg × List CbEvent) (l₁ l₂ : List Reg) :
    mapCollect f (l₁ ++ l₂) =
      ((mapCollect f l₁).1 ++ (mapCollect f l₂).1,
       (mapCollect f l₁).2 ++ (mapCollect f l₂).2) := by
  induction l₁ with
  | nil => simp [mapCollect]
  | cons r rs ih => simp [mapCollect, ih]

theorem pressReg_chord (p : Finset PKey) (r : Reg) :
    ((pressReg p r).1).chord = r.chord := by
  rcases r with ⟨c, m, hr, a, t⟩
  cases m <;> simp [pressReg] <;> split <;> simp

theorem pressReg_mode (p : Finset PKey) (r : Reg) :
    ((pressReg p r).1).mode = r.mode := by
  rcases r with ⟨c, m, hr, a, t⟩
  cases m <;> simp [pressReg] <;> split <;> simp

theorem pressReg_hasOnRelease (p : Finset PKey) (r : Reg) :
    ((pressReg p r).1).hasOnRelease = r.hasOnRelease := by
  rcases r with ⟨c, m, hr, a, t⟩
  cases m <;> simp [pressReg] <;> split <;> simp

theorem releaseReg_chord (p : Finset PKey) (r : Reg) :
    ((releaseReg p r).1).chord = r.chord := by
  rcases r with ⟨c, m, hr, a, t⟩
  cases m <;> simp [releaseReg] <;> split <;> simp

theorem releaseReg_mode (p : Finset PKey) (r : Reg) :
    ((releaseReg p r).1).mode = r.mode := by
  rcases r with ⟨c, m, hr, a, t⟩
  cases m <;> simp [releaseReg] <;> split <;> simp

theorem releaseReg_hasOnRelease (p : Finset PKey) (r : Reg) :
    ((releaseReg p r).1).hasOnRelease = r.hasOnRelease := by
  rcases r with ⟨c, m, hr, a, t⟩
  cases m <;> simp [releaseReg] <;> split <;> simp

theorem pressReg_events (p : Finset PKey) (r : Reg) :
    ∀ e ∈ (pressReg p r).2, ∃ b, e = .activate r.chord b := by
  rcases r with ⟨c, m, hr, a, t⟩
  cases m <;> simp [pressReg] <;> split <;> simp

theorem releaseReg_events (p : Finset PKey) (r : Reg) :
    ∀ e ∈ (releaseReg p r).2, e = .deactivate r.chord := by
  rcases r with ⟨c, m, hr, a, t⟩
  cases m with
  | toggle => simp only [releaseReg]; split <;> simp
  | hold =>
    simp only [releaseReg]
    split
    · cases hr <;> simp
    · simp

theorem activationsFor_append (c : Finset PKey) (t₁ t₂ : List CbEvent) :
    activationsFor c (t₁ ++ t₂) = activationsFor c t₁ ++ activationsFor c t₂ := by
  simp [activationsFor]

theorem releasesFor_append (c : Finset PKey) (t₁ t₂ : List CbEvent) :
    releasesFor c (t₁ ++ t₂) = releasesFor c t₁ + releasesFor c t₂ := by
  simp [releasesFor]

theorem activationsFor_press_other (c : Finset PKey) (p : Finset PKey) (r : Reg)
    (h : r.chord ≠ c) : activationsFor c (pressReg p r).2 = [] := by
  rcases r with ⟨c', m, hr, a, t⟩
  simp only [Reg.mk.injEq] at h
  cases m <;> simp [pressReg] <;> split <;> simp_all [activationsFor]

theorem activationsFor_release (c : Finset PKey) (p : Finset PKey) (r : Reg) :
    activationsFor c (releaseReg p r).2 = [] := by
  rcases r with ⟨c', m, hr, a, t⟩
  cases m with
  | toggle => simp only [releaseReg]; split <;> simp [activationsFor]
  | hold =>
    simp only [releaseReg]
    split
    · cases hr <;> simp [activationsFor]
    · simp [activationsFor]

theorem releasesFor_press (c : Finset PKey) (p : Finset PKey) (r : Reg) :
    releasesFor c (pressReg p r).2 = 0 := by
  rcases r with ⟨c', m, hr, a, t⟩
  cases m <;> simp [pressReg] <;> split <;> simp [releasesFor]

theorem releasesFor_release_other (c : Finset PKey) (p : Finset PKey) (r : Reg)
    (h : r.chord ≠ c) : releasesFor c (releaseReg p r).2 = 0 := by
  rcases r with ⟨c', m, hr, a, t⟩
  simp only at h
  cases m with
  | toggle => simp only [releaseReg]; split <;> simp [releasesFor]
  | hold =>
    simp only [releaseReg]
    split
    · cases hr <;> simp [releasesFor, h]
    · simp [releasesFor]

theorem activationsFor_collect_null (c : Finset PKey) (f : Reg → Reg × List CbEvent)
    (rs : List Reg) (h : ∀ r ∈ rs, activationsFor c (f r).2 = []) :
    activationsFor c (mapCollect f rs).2 = [] := by
  induction rs with
  | nil => simp [mapCollect, activationsFor]
  | cons r rs ih =>
    simp [mapCollect, activationsFor_append, h r (List.mem_cons_self r rs)]
    exact ih fun x hx => h x (List.mem_cons_of_mem r hx)

theorem releasesFor_collect_null (c : Finset PKey) (f : Reg → Reg × List CbEvent)
    (rs : List Reg) (h : ∀ r ∈ rs, releasesFor c (f r).2 = 0) :
    releasesFor c (mapCollect f rs).2 = 0 := by
  induction rs with
  | nil => simp [mapCollect, releasesFor]
  | cons r rs ih =>
    simp [mapCollect, releasesFor_append, h r (List.mem_cons_self r rs)]
    exact ih fun x hx => h x (List.mem_cons_of_mem r hx)

theorem subset_pressedStep_down (k : PKey) (p : Finset PKey) :
    p ⊆ pressedStep (.down k) p := by
  intro x hx
  simp [pressedStep]
  tauto

theorem pressedStep_up_subset (k : PKey) (p : Finset PKey) :
    pressedStep (.up k) p ⊆ p := by
  intro x hx
  simp [pressedStep] at hx
  exact hx.2.2

theorem pressReg_active_noop (p : Finset PKey) (r : Reg) (ha : r.active = true) :
    pressReg p r = (r, []) := by
  simp [pressReg, ha]

theorem mapCollect_snd_mem (f : Reg → Reg × List CbEvent) (rs : List Reg) :
    ∀ e ∈ (mapCollect f rs).2, ∃ r ∈ rs, e ∈ (f r).2 := by
  induction rs with
  | nil => simp [mapCollect]
  | cons r rs ih =>
    intro e he
    simp only [mapCollect, List.mem_append] at he
    rcases he with he | he
    · exact ⟨r, List.mem_cons_self r rs, he⟩
    · obtain ⟨x, hx, hex⟩ := ih e he
      exact ⟨x, List.mem_cons_of_mem r hx, hex⟩

theorem releaseReg_not_subset (p : Finset PKey) (r : Reg) (h : ¬ r.chord ⊆ p) :
    ((releaseReg p r).1).active = false := by
  rcases r with ⟨c, m, hr, a, t⟩
  cases m <;> cases a <;> simp [releaseReg, h]

theorem chord_not_subset_after_up (k : PKey) (p c : Finset PKey)
    (hk : k ∈ c ∨ normalizeKey k ∈ c) : ¬ c ⊆ pressedStep (.up k) p := by
  intro hsub
  rcases hk with hk | hk
  · have := hsub hk
    simp [pressedStep] at this
  · have := hsub hk
    simp [pressedStep] at this

/-- C8: chord matching is subset-based over the normalized pressed-key
set.  (1) a key press never deactivates an active registration (so an
extra unrelated key leaves a held chord active); (2) key-down processing
never emits an `on_release` event; (3) releasing any one required key of
a chord (physically or as its normalized form) deactivates the
registration; (4) a chord registered as `{ctrl, shift}` is activated by
every combination of generic/left/right physical ctrl and shift keys. -/
theorem subset_matching_with_normalization :
    (∀ (s : LState) (i : ℕ) (r : Reg) (k : PKey),
      s.regs.get? i = some r → r.active = true →
      ∃ r', (stepEvent (.down k) s).1.regs.get? i = some r' ∧
        r'.active = true ∧ r'.chord = r.chord) ∧
    (∀ (s : LState) (k : PKey), ∀ e ∈ (stepEvent (.down k) s).2,
      ∀ c, e ≠ .deactivate c) ∧
    (∀ (s : LState) (i : ℕ) (r : Reg) (k : PKey),
      s.regs.get? i = some r → (k ∈ r.chord ∨ normalizeKey k ∈ r.chord) →
      ∃ r', (stepEvent (.up k) s).1.regs.get? i = some r' ∧
        r'.active = false ∧ r'.chord = r.chord) ∧
    (∀ kc ∈ [PKey.ctrl, PKey.ctrlL, PKey.ctrlR],
     ∀ ks ∈ [PKey.shift, PKey.shiftL, PKey.shiftR],
      (runEvents [.down kc, .down ks]
        ⟨∅, [⟨{PKey.ctrl, PKey.shift}, .hold, false, false, false⟩]⟩).2 =
        [.activate {PKey.ctrl, PKey.shift} none]) := by
  refine ⟨?_, ?_, ?_, ?_⟩
  · intro s i r k hi ha
    refine ⟨r, ?_, ha, rfl⟩
    simp only [stepEvent, mapCollect_fst, List.get?_map, hi, Option.map_some']
    rw [pressReg_active_noop _ r ha]
  · intro s k e he c
    simp only [stepEvent] at he
    obtain ⟨r, _, her⟩ := mapCollect_snd_mem _ _ e he
    obtain ⟨b, hb⟩ := pressReg_events _ r e her
    simp [hb]
  · intro s i r k hi hk
    refine ⟨(releaseReg (pressedStep (.up k) s.pressed) r).1, ?_, ?_, ?_⟩
    · simp only [stepEvent, mapCollect_fst, List.get?_map, hi, Option.map_some']
    · exact releaseReg_not_subset _ r (chord_not_subset_after_up k s.pressed r.chord hk)
    · exact releaseReg_chord _ r
  · decide

theorem subset_matching_with_normalization_witness :
    ((Reg.mk {PKey.ctrl, PKey.shift} .hold false true false) ::
        (⟨{PKey.ctrl, PKey.shift}, ShortcutMode.hold, false, true, false⟩ : Reg) ::
        []).get? 0 = some ⟨{PKey.ctrl, PKey.shift}, .hold, false, true, false⟩ ∧
    (∃ r', (stepEvent (.down (PKey.char 'x'))
        ⟨{PKey.ctrl, PKey.shift},
         [⟨{PKey.ctrl, PKey.shift}, .hold, false, true, false⟩]⟩).1.regs.get? 0 = some r' ∧
      r'.active = true ∧ r'.chord = ({PKey.ctrl, PKey.shift} : Finset PKey)) ∧
    (runEvents [.down PKey.ctrlR, .down PKey.shiftL]
      ⟨∅, [⟨{PKey.ctrl, PKey.shift}, .hold, false, false, false⟩]⟩).2 =
      [.activate {PKey.ctrl, PKey.shift} none] := by
  refine ⟨by decide, ?_, ?_⟩
  · exact subset_matching_with_normalization.1
      ⟨{PKey.ctrl, PKey.shift}, [⟨{PKey.ctrl, PKey.shift}, .hold, false, true, false⟩]⟩
      0 ⟨{PKey.ctrl, PKey.shift}, .hold, false, true, false⟩ (PKey.char 'x') (by decide) rfl
  · exact subset_matching_with_normalization.2.2.2 PKey.ctrlR (by decide) PKey.shiftL (by decide)

/-- C10: shortcut parsing silently drops any token that is neither a
`KEY_MAP` name nor a single character — every key in the parsed chord
comes from a recognized token and every recognized token contributes its
key — and when no token at all is recognized, `register_shortcut` stores
no registration and raises nothing (the listener is left exactly as it
was, so no later key event can ever activate the attempted shortcut). -/
theorem unknown_tokens_dropped :
    (∀ (s : String) (mode : ShortcutMode) (hr : Bool) (st : LState),
      parseShortcut s = ∅ → registerShortcut s mode hr st = st) ∧
    (∀ (s : String) (mode : ShortcutMode) (hr : Bool) (st : LState)
       (evs : List KEvent),
      parseShortcut s = ∅ →
      runEvents evs (registerShortcut s mode hr st) = runEvents evs st) ∧
    (∀ (s : String) (k : PKey), k ∈ parseShortcut s →
      ∃ t ∈ tokensOf s, classifyToken t = some k) ∧
    (∀ (s t : String), t ∈ tokensOf s → ∀ k, classifyToken t = some k →
      k ∈ parseShortcut s) := by
  refine ⟨?_, ?_, ?_, ?_⟩
  · intro s mode hr st h
    simp [registerShortcut, h]
  · intro s mode hr st evs h
    simp [registerShortcut, h]
  · intro s k hk
    simpa [parseShortcut, List.mem_filterMap] using List.mem_toFinset.mp hk
  · intro s t ht k hk
    exact List.mem_toFinset.mpr (List.mem_filterMap.mpr ⟨t, ht, hk⟩)

theorem unknown_tokens_dropped_witness :
    parseShortcut "bogus+nope" = ∅ ∧
    registerShortcut "bogus+nope" .toggle false ⟨∅, []⟩ = (⟨∅, []⟩ : LState) ∧
    parseShortcut "ctrl+bogus+d" = ({PKey.ctrl, PKey.char 'd'} : Finset PKey) ∧
    (PKey.ctrl ∈ parseShortcut "ctrl+bogus+d" →
      ∃ t ∈ tokensOf "ctrl+bogus+d", classifyToken t = some PKey.ctrl) := by
  refine ⟨by decide, ?_, by decide, ?_⟩
  · exact unknown_tokens_dropped.1 "bogus+nope" .toggle false ⟨∅, []⟩ (by decide)
  · exact unknown_tokens_dropped.2.2.1 "ctrl+bogus+d" PKey.ctrl

theorem pressReg_fire_toggle (p' : Finset PKey) (r : Reg) (hm : r.mode = .toggle)
    (hsub : r.chord ⊆ p') (ha : r.active = false) :
    pressReg p' r = ({ r with active := true, toggleState := !r.toggleState },
      [.activate r.chord (some (!r.toggleState))]) := by
  simp [pressReg, hsub, ha, hm]

theorem pressReg_fire_hold (p' : Finset PKey) (r : Reg) (hm : r.mode = .hold)
    (hsub : r.chord ⊆ p') (ha : r.active = false) :
    pressReg p' r = ({ r with active := true }, [.activate r.chord none]) := by
  simp [pressReg, hsub, ha, hm]

theorem pressReg_nofire (p' : Finset PKey) (r : Reg) (h : ¬ r.chord ⊆ p') :
    pressReg p' r = (r, []) := by
  simp [pressReg, h]

theorem releaseReg_noop_subset (p' : Finset PKey) (r : Reg) (hsub : r.chord ⊆ p') :
    releaseReg p' r = (r, []) := by
  rcases r with ⟨c, m, hr, a, t⟩
  cases m <;> simp_all [releaseReg]

theorem releaseReg_noop_inactive (p' : Finset PKey) (r : Reg) (ha : r.active = false) :
    releaseReg p' r = (r, []) := by
  rcases r with ⟨c, m, hr, a, t⟩
  cases m <;> simp_all [releaseReg]

theorem releaseReg_fire_toggle (p' : Finset PKey) (r : Reg) (hm : r.mode = .toggle)
    (ha : r.active = true) (h : ¬ r.chord ⊆ p') :
    releaseReg p' r = ({ r with active := false }, []) := by
  simp [releaseReg, hm, ha, h]

theorem releaseReg_fire_hold (p' : Finset PKey) (r : Reg) (hm : r.mode = .hold)
    (ha : r.active = true) (h : ¬ r.chord ⊆ p') :
    releaseReg p' r = ({ r with active := false },
      if r.hasOnRelease then [.deactivate r.chord] else []) := by
  simp [releaseReg, hm, ha, h]

theorem altList_length (b : Bool) (n : ℕ) : (altList b n).length = n := by
  induction n generalizing b with
  | zero => rfl
  | succ n ih => simp [altList, ih]

theorem mapCollect_cons_decomp (f : Reg → Reg × List CbEvent) (l₁ l₂ : List Reg) (r : Reg) :
    mapCollect f (l₁ ++ r :: l₂) =
      ((mapCollect f l₁).1 ++ (f r).1 :: (mapCollect f l₂).1,
       (mapCollect f l₁).2 ++ ((f r).2 ++ (mapCollect f l₂).2)) := by
  rw [mapCollect_append]
  simp [mapCollect]

theorem chord_ne_of_mem_press (p' : Finset PKey) (l : List Reg) (c : Finset PKey)
    (h : ∀ x ∈ l, x.chord ≠ c) :
    ∀ x ∈ (mapCollect (pressReg p') l).1, x.chord ≠ c := by
  rw [mapCollect_fst]
  intro x hx
  obtain ⟨y, hy, rfl⟩ := List.mem_map.mp hx
  rw [pressReg_chord]
  exact h y hy

theorem chord_ne_of_mem_release (p' : Finset PKey) (l : List Reg) (c : Finset PKey)
    (h : ∀ x ∈ l, x.chord ≠ c) :
    ∀ x ∈ (mapCollect (releaseReg p') l).1, x.chord ≠ c := by
  rw [mapCollect_fst]
  intro x hx
  obtain ⟨y, hy, rfl⟩ := List.mem_map.mp hx
  rw [releaseReg_chord]
  exact h y hy

theorem runEvents_cons (ev : KEvent) (evs : List KEvent) (s : LState) :
    runEvents (ev :: evs) s =
      ((runEvents evs (stepEvent ev s).1).1,
       (stepEvent ev s).2 ++ (runEvents evs (stepEvent ev s).1).2) := rfl

theorem stepEvent_down_fst (k : PKey) (s : LState) :
    (stepEvent (.down k) s).1 =
      ⟨pressedStep (.down k) s.pressed,
       (mapCollect (pressReg (pressedStep (.down k) s.pressed)) s.regs).1⟩ := rfl

theorem stepEvent_down_snd (k : PKey) (s : LState) :
    (stepEvent (.down k) s).2 =
      (mapCollect (pressReg (pressedStep (.down k) s.pressed)) s.regs).2 := rfl

theorem stepEvent_up_fst (k : PKey) (s : LState) :
    (stepEvent (.up k) s).1 =
      ⟨pressedStep (.up k) s.pressed,
       (mapCollect (releaseReg (pressedStep (.up k) s.pressed)) s.regs).1⟩ := rfl

theorem stepEvent_up_snd (k : PKey) (s : LState) :
    (stepEvent (.up k) s).2 =
      (mapCollect (releaseReg (pressedStep (.up k) s.pressed)) s.regs).2 := rfl

theorem countRises_cons (c p : Finset PKey) (ev : KEvent) (evs : List KEvent) :
    countRises c p (ev :: evs) =
      (if ¬ c ⊆ p ∧ c ⊆ pressedStep ev p then 1 else 0) +
        countRises c (pressedStep ev p) evs := rfl

theorem countFalls_cons (c p : Finset PKey) (ev : KEvent) (evs : List KEvent) :
    countFalls c p (ev :: evs) =
      (if c ⊆ p ∧ ¬ c ⊆ pressedStep ev p then 1 else 0) +
        countFalls c (pressedStep ev p) evs := rfl

theorem toggle_trace_aux (evs : List KEvent) :
    ∀ (p : Finset PKey) (l₁ l₂ : List Reg) (r : Reg),
      (∀ x ∈ l₁, x.chord ≠ r.chord) → (∀ x ∈ l₂, x.chord ≠ r.chord) →
      r.mode = .toggle → r.active = decide (r.chord ⊆ p) →
      activationsFor r.chord (runEvents evs ⟨p, l₁ ++ r :: l₂⟩).2 =
        (altList (!r.toggleState) (countRises r.chord p evs)).map some := by
  induction evs with
  | nil =>
    intro p l₁ l₂ r h₁ h₂ hm ha
    simp [runEvents, activationsFor, countRises, altList]
  | cons ev evs ih =>
    intro p l₁ l₂ r h₁ h₂ hm ha
    cases ev with
    | down k =>
      rw [runEvents_cons, stepEvent_down_fst, stepEvent_down_snd, countRises_cons]
      simp only [activationsFor_append]
      rw [mapCollect_cons_decomp]
      simp only [activationsFor_append]
      rw [activationsFor_collect_null r.chord _ l₁
            (fun x hx => activationsFor_press_other _ _ x (h₁ x hx)),
          activationsFor_collect_null r.chord _ l₂
            (fun x hx => activationsFor_press_other _ _ x (h₂ x hx))]
      simp only [List.nil_append, List.append_nil]
      by_cases hp' : r.chord ⊆ pressedStep (.down k) p
      · by_cases hp : r.chord ⊆ p
        · -- chord already fully pressed: no fire
          have ha' : r.active = true := by rw [ha]; simp [hp]
          rw [pressReg_active_noop _ r ha']
          have := ih (pressedStep (.down k) p)
            (mapCollect (pressReg (pressedStep (.down k) p)) l₁).1
            (mapCollect (pressReg (pressedStep (.down k) p)) l₂).1 r
            (chord_ne_of_mem_press _ l₁ r.chord h₁)
            (chord_ne_of_mem_press _ l₂ r.chord h₂)
            hm (by rw [ha']; simp [hp'])
          simp only [activationsFor, hp, hp'] at this ⊢
          simpa [hp] using this
        · -- rise: the chord becomes fully pressed now
          have ha' : r.active = false := by rw [ha]; simp [hp]
          rw [pressReg_fire_toggle _ r hm hp' ha']
          have := ih (pressedStep (.down k) p)
            (mapCollect (pressReg (pressedStep (.down k) p)) l₁).1
            (mapCollect (pressReg (pressedStep (.down k) p)) l₂).1
            ({ r with active := true, toggleState := !r.toggleState })
            (chord_ne_of_mem_press _ l₁ r.chord h₁)
            (chord_ne_of_mem_press _ l₂ r.chord h₂)
            hm (by simp [hp'])
          simp only [] at this
          rw [this]
          simp [activationsFor, hp, hp', altList, Nat.add_comm]
      · -- chord still not fully pressed: no fire
        have hpp : ¬ r.chord ⊆ p := fun h => hp' (h.trans (subset_pressedStep_down k p))
        have ha' : r.active = false := by rw [ha]; simp [hpp]
        rw [pressReg_nofire _ r hp']
        have := ih (pressedStep (.down k) p)
          (mapCollect (pressReg (pressedStep (.down k) p)) l₁).1
          (mapCollect (pressReg (pressedStep (.down k) p)) l₂).1 r
          (chord_ne_of_mem_press _ l₁ r.chord h₁)
          (chord_ne_of_mem_press _ l₂ r.chord h₂)
          hm (by rw [ha']; simp [hp'])
        rw [this]
        simp [activationsFor, hp']
    | up k =>
      rw [runEvents_cons, stepEvent_up_fst, stepEvent_up_snd, countRises_cons]
      simp only [activationsFor_append]
      rw [mapCollect_cons_decomp]
      simp only [activationsFor_append]
      rw [activationsFor_collect_null r.chord _ l₁
            (fun x hx => activationsFor_release _ _ x),
          activationsFor_collect_null r.chord _ l₂
            (fun x hx => activationsFor_release _ _ x),
          activationsFor_release r.chord _ r]
      simp only [List.nil_append, List.append_nil]
      have hanti := pressedStep_up_subset k p
      have hnorise : ¬ (¬ r.chord ⊆ p ∧ r.chord ⊆ pressedStep (.up k) p) := by
        rintro ⟨hnp, hp'⟩
        exact hnp (hp'.trans hanti)
      -- the registration after the release step
      by_cases hp : r.chord ⊆ p
      · have ha' : r.active = true := by rw [ha]; simp [hp]
        by_cases hp' : r.chord ⊆ pressedStep (.up k) p
        · rw [releaseReg_noop_subset _ r hp']
          have := ih (pressedStep (.up k) p)
            (mapCollect (releaseReg (pressedStep (.up k) p)) l₁).1
            (mapCollect (releaseReg (pressedStep (.up k) p)) l₂).1 r
            (chord_ne_of_mem_release _ l₁ r.chord h₁)
            (chord_ne_of_mem_release _ l₂ r.chord h₂)
            hm (by rw [ha']; simp [hp'])
          rw [this]
          simp [hnorise]
        · rw [releaseReg_fire_toggle _ r hm ha' hp']
          have := ih (pressedStep (.up k) p)
            (mapCollect (releaseReg (pressedStep (.up k) p)) l₁).1
            (mapCollect (releaseReg (pressedStep (.up k) p)) l₂).1
            ({ r with active := false })
            (chord_ne_of_mem_release _ l₁ r.chord h₁)
            (chord_ne_of_mem_release _ l₂ r.chord h₂)
            hm (by simp [hp'])
          rw [this]
          simp [hnorise]
      · have ha' : r.active = false := by rw [ha]; simp [hp]
        have hp' : ¬ r.chord ⊆ pressedStep (.up k) p := fun h => hp (h.trans hanti)
        rw [releaseReg_noop_inactive _ r ha']
        have := ih (pressedStep (.up k) p)
          (mapCollect (releaseReg (pressedStep (.up k) p)) l₁).1
          (mapCollect (releaseReg (pressedStep (.up k) p)) l₂).1 r
          (chord_ne_of_mem_release _ l₁ r.chord h₁)
          (chord_ne_of_mem_release _ l₂ r.chord h₂)
          hm (by rw [ha']; simp [hp'])
        rw [this]
        simp [hnorise]

/-- C4: for a chord registered in Toggle mode, `onActivate` fires exactly
once per transition of the pressed-key set from "chord not fully pressed"
to "chord fully pressed" (key repeats while fully pressed never re-fire;
releasing a required key and re-pressing it fires again), and the toggle
bit the callback observes is the post-toggle value: the observed bits
alternate starting from the negation of the initial bit, i.e. each
activation sees the bit already flipped. -/
theorem toggle_fires_once_per_transition (evs : List KEvent) (p : Finset PKey)
    (l₁ l₂ : List Reg) (r : Reg)
    (h₁ : ∀ x ∈ l₁, x.chord ≠ r.chord) (h₂ : ∀ x ∈ l₂, x.chord ≠ r.chord)
    (hm : r.mode = .toggle) (ha : r.active = decide (r.chord ⊆ p)) :
    activationsFor r.chord (runEvents evs ⟨p, l₁ ++ r :: l₂⟩).2 =
      (altList (!r.toggleState) (countRises r.chord p evs)).map some ∧
    (activationsFor r.chord (runEvents evs ⟨p, l₁ ++ r :: l₂⟩).2).length =
      countRises r.chord p evs := by
  have h := toggle_trace_aux evs p l₁ l₂ r h₁ h₂ hm ha
  exact ⟨h, by rw [h]; simp [altList_length]⟩

theorem toggle_fires_once_per_transition_witness :
    -- press ctrl, press shift (fires, observes true), key-repeat shift
    -- (no re-fire), release shift, re-press shift via the right variant
    -- (fires again, observes false)
    activationsFor {PKey.ctrl, PKey.shift}
      (runEvents
        [.down PKey.ctrlL, .down PKey.shiftL, .down PKey.shiftL,
         .up PKey.shiftL, .down PKey.shiftR]
        ⟨∅, [] ++ (⟨{PKey.ctrl, PKey.shift}, .toggle, false, false, false⟩ : Reg) :: []⟩).2 =
      [some true, some false] := by
  have h := (toggle_fires_once_per_transition
    [.down PKey.ctrlL, .down PKey.shiftL, .down PKey.shiftL,
     .up PKey.shiftL, .down PKey.shiftR]
    ∅ [] [] ⟨{PKey.ctrl, PKey.shift}, .toggle, false, false, false⟩
    (by simp) (by simp) rfl (by decide)).1
  exact h.trans (by decide)

theorem hold_trace_aux (evs : List KEvent) :
    ∀ (p : Finset PKey) (l₁ l₂ : List Reg) (r : Reg),
      (∀ x ∈ l₁, x.chord ≠ r.chord) → (∀ x ∈ l₂, x.chord ≠ r.chord) →
      r.mode = .hold → r.active = decide (r.chord ⊆ p) →
      activationsFor r.chord (runEvents evs ⟨p, l₁ ++ r :: l₂⟩).2 =
        List.replicate (countRises r.chord p evs) none ∧
      releasesFor r.chord (runEvents evs ⟨p, l₁ ++ r :: l₂⟩).2 =
        (if r.hasOnRelease then countFalls r.chord p evs else 0) := by
  induction evs with
  | nil =>
    intro p l₁ l₂ r h₁ h₂ hm ha
    simp [runEvents, activationsFor, releasesFor, countRises, countFalls]
  | cons ev evs ih =>
    intro p l₁ l₂ r h₁ h₂ hm ha
    cases ev with
    | down k =>
      rw [runEvents_cons, stepEvent_down_fst, stepEvent_down_snd,
          countRises_cons, countFalls_cons]
      rw [mapCollect_cons_decomp]
      simp only [activationsFor_append, releasesFor_append]
      rw [activationsFor_collect_null r.chord _ l₁
            (fun x hx => activationsFor_press_other _ _ x (h₁ x hx)),
          activationsFor_collect_null r.chord _ l₂
            (fun x hx => activationsFor_press_other _ _ x (h₂ x hx)),
          releasesFor_collect_null r.chord _ l₁ (fun x _ => releasesFor_press _ _ x),
          releasesFor_collect_null r.chord _ l₂ (fun x _ => releasesFor_press _ _ x),
          releasesFor_press r.chord _ r]
      have hnofall : ¬ (r.chord ⊆ p ∧ ¬ r.chord ⊆ pressedStep (.down k) p) := by
        rintro ⟨hp, hp'⟩
        exact hp' (hp.trans (subset_pressedStep_down k p))
      simp only [List.nil_append, List.append_nil, Nat.add_zero, Nat.zero_add]
      by_cases hp' : r.chord ⊆ pressedStep (.down k) p
      · by_cases hp : r.chord ⊆ p
        · have ha' : r.active = true := by rw [ha]; simp [hp]
          rw [pressReg_active_noop _ r ha']
          have hIH := ih (pressedStep (.down k) p)
            (mapCollect (pressReg (pressedStep (.down k) p)) l₁).1
            (mapCollect (pressReg (pressedStep (.down k) p)) l₂).1 r
            (chord_ne_of_mem_press _ l₁ r.chord h₁)
            (chord_ne_of_mem_press _ l₂ r.chord h₂)
            hm (by rw [ha']; simp [hp'])
          refine ⟨?_, ?_⟩
          · rw [hIH.1]
            simp [activationsFor, hp]
          · rw [hIH.2]
            simp [hnofall]
        · have ha' : r.active = false := by rw [ha]; simp [hp]
          rw [pressReg_fire_hold _ r hm hp' ha']
          have hIH := ih (pressedStep (.down k) p)
            (mapCollect (pressReg (pressedStep (.down k) p)) l₁).1
            (mapCollect (pressReg (pressedStep (.down k) p)) l₂).1
            ({ r with active := true })
            (chord_ne_of_mem_press _ l₁ r.chord h₁)
            (chord_ne_of_mem_press _ l₂ r.chord h₂)
            hm (by simp [hp'])
          refine ⟨?_, ?_⟩
          · rw [hIH.1]
            simp [activationsFor, hp, hp', List.replicate_succ, Nat.add_comm]
          · rw [hIH.2]
            simp [hnofall]
      · have hpp : ¬ r.chord ⊆ p := fun h => hp' (h.trans (subset_pressedStep_down k p))
        have ha' : r.active = false := by rw [ha]; simp [hpp]
        rw [pressReg_nofire _ r hp']
        have hIH := ih (pressedStep (.down k) p)
          (mapCollect (pressReg (pressedStep (.down k) p)) l₁).1
          (mapCollect (pressReg (pressedStep (.down k) p)) l₂).1 r
          (chord_ne_of_mem_press _ l₁ r.chord h₁)
          (chord_ne_of_mem_press _ l₂ r.chord h₂)
          hm (by rw [ha']; simp [hp'])
        refine ⟨?_, ?_⟩
        · rw [hIH.1]
          simp [activationsFor, hp']
        · rw [hIH.2]
          simp [hnofall]
    | up k =>
      rw [runEvents_cons, stepEvent_up_fst, stepEvent_up_snd,
          countRises_cons, countFalls_cons]
      rw [mapCollect_cons_decomp]
      simp only [activationsFor_append, releasesFor_append]
      rw [activationsFor_collect_null r.chord _ l₁
            (fun x _ => activationsFor_release _ _ x),
          activationsFor_collect_null r.chord _ l₂
            (fun x _ => activationsFor_release _ _ x),
          activationsFor_release r.chord _ r,
          releasesFor_collect_null r.chord _ l₁
            (fun x hx => releasesFor_release_other _ _ x (h₁ x hx)),
          releasesFor_collect_null r.chord _ l₂
            (fun x hx => releasesFor_release_other _ _ x (h₂ x hx))]
      have hanti := pressedStep_up_subset k p
      have hnorise : ¬ (¬ r.chord ⊆ p ∧ r.chord ⊆ pressedStep (.up k) p) := by
        rintro ⟨hnp, hp'⟩
        exact hnp (hp'.trans hanti)
      simp only [List.nil_append, List.append_nil, Nat.add_zero, Nat.zero_add]
      by_cases hp : r.chord ⊆ p
      · have ha' : r.active = true := by rw [ha]; simp [hp]
        by_cases hp' : r.chord ⊆ pressedStep (.up k) p
        · rw [releaseReg_noop_subset _ r hp']
          have hIH := ih (pressedStep (.up k) p)
            (mapCollect (releaseReg (pressedStep (.up k) p)) l₁).1
            (mapCollect (releaseReg (pressedStep (.up k) p)) l₂).1 r
            (chord_ne_of_mem_release _ l₁ r.chord h₁)
            (chord_ne_of_mem_release _ l₂ r.chord h₂)
            hm (by rw [ha']; simp [hp'])
          refine ⟨?_, ?_⟩
          · rw [hIH.1]
            simp [hnorise]
          · rw [hIH.2]
            simp [releasesFor, hp, hp']
        · rw [releaseReg_fire_hold _ r hm ha' hp']
          have hIH := ih (pressedStep (.up k) p)
            (mapCollect (releaseReg (pressedStep (.up k) p)) l₁).1
            (mapCollect (releaseReg (pressedStep (.up k) p)) l₂).1
            ({ r with active := false })
            (chord_ne_of_mem_release _ l₁ r.chord h₁)
            (chord_ne_of_mem_release _ l₂ r.chord h₂)
            hm (by simp [hp'])
          refine ⟨?_, ?_⟩
          · rw [hIH.1]
            simp [hnorise]
          · rw [hIH.2]
            cases hOR : r.hasOnRelease <;> simp [releasesFor, hp, hp', hOR, Nat.add_comm]
      · have ha' : r.active = false := by rw [ha]; simp [hp]
        have hp' : ¬ r.chord ⊆ pressedStep (.up k) p := fun h => hp (h.trans hanti)
        rw [releaseReg_noop_inactive _ r ha']
        have hIH := ih (pressedStep (.up k) p)
          (mapCollect (releaseReg (pressedStep (.up k) p)) l₁).1
          (mapCollect (releaseReg (pressedStep (.up k) p)) l₂).1 r
          (chord_ne_of_mem_release _ l₁ r.chord h₁)
          (chord_ne_of_mem_release _ l₂ r.chord h₂)
          hm (by rw [ha']; simp [hp'])
        refine ⟨?_, ?_⟩
        · rw [hIH.1]
          simp [hnorise]
        · rw [hIH.2]
          simp [releasesFor, hp]

/-- C9: for a chord registered in Hold mode with an `on_release`
callback, `onActivate` fires exactly once each time the chord becomes
fully pressed, and `onRelease` fires exactly once each time it stops
being fully pressed — so pressing the keys fires `onActivate` once,
releasing the first required key fires `onRelease` once, and releasing
the remaining required keys afterwards fires nothing further. -/
theorem hold_fires_activate_and_release_once (evs : List KEvent) (p : Finset PKey)
    (l₁ l₂ : List Reg) (r : Reg)
    (h₁ : ∀ x ∈ l₁, x.chord ≠ r.chord) (h₂ : ∀ x ∈ l₂, x.chord ≠ r.chord)
    (hm : r.mode = .hold) (ha : r.active = decide (r.chord ⊆ p))
    (hor : r.hasOnRelease = true) :
    activationsFor r.chord (runEvents evs ⟨p, l₁ ++ r :: l₂⟩).2 =
      List.replicate (countRises r.chord p evs) none ∧
    releasesFor r.chord (runEvents evs ⟨p, l₁ ++ r :: l₂⟩).2 =
      countFalls r.chord p evs := by
  have h := hold_trace_aux evs p l₁ l₂ r h₁ h₂ hm ha
  exact ⟨h.1, by rw [h.2, hor]; simp⟩

theorem hold_fires_activate_and_release_once_witness :
    -- press ctrl, press shift → one activation; release ctrl → one
    -- on_release; release shift afterwards → nothing further
    activationsFor {PKey.ctrl, PKey.shift}
      (runEvents [.down PKey.ctrlL, .down PKey.shiftL, .up PKey.ctrlL, .up PKey.shiftL]
        ⟨∅, [] ++ (⟨{PKey.ctrl, PKey.shift}, .hold, true, false, false⟩ : Reg) :: []⟩).2 =
      [none] ∧
    releasesFor {PKey.ctrl, PKey.shift}
      (runEvents [.down PKey.ctrlL, .down PKey.shiftL, .up PKey.ctrlL, .up PKey.shiftL]
        ⟨∅, [] ++ (⟨{PKey.ctrl, PKey.shift}, .hold, true, false, false⟩ : Reg) :: []⟩).2 = 1 := by
  have h := hold_fires_activate_and_release_once
    [.down PKey.ctrlL, .down PKey.shiftL, .up PKey.ctrlL, .up PKey.shiftL]
    ∅ [] [] ⟨{PKey.ctrl, PKey.shift}, .hold, true, false, false⟩
    (by simp) (by simp) rfl (by decide) rfl
  exact ⟨h.1.trans (by decide), h.2.trans (by decide)⟩
